import Mathlib

/-!
Shallow embedding of the ordering engine and rule store of the
CustomFileOrder extension (src/treeProvider.ts, src/configManager.ts,
src/models/orderRule.ts), together with theorems checking the
natural-language specification against it.

Conventions of the embedding:
* JS strings are Lean `String`s; `a.localeCompare(b)` and the `<` of
  JS strings are modelled as code-point lexicographic comparison.
* `Array.prototype.sort` (stable since ES2019) is a stable sort by
  the relation "comparator result ≤ 0" (`List.insertionSort`, which is
  stable and computes in the kernel).
* A JS object used as a string-keyed map is an association list in
  insertion order (JS objects enumerate non-index string keys in
  insertion order); assignment replaces the binding in place or
  appends, `delete` removes it.
* `fs.statSync(p).isDirectory()` wrapped in try/catch is an oracle
  `st : String → Option Bool`; `none` is a thrown stat error, which the
  code treats as "not a directory".
* The `vscode` configuration reads (`getDefaultFoldersFirst`) are
  passed as explicit parameters.
-/

namespace CustomFileOrder

/-- Entry of a directory listing as the tree provider sees it
(`FileItem`): display label / base name and directory flag.  For items
built by `getFilesAndFolders` the label and the base name coincide, so
one `name` field stands for both `item.label` and `item.fileName`. -/
structure Entry where
  name : String
  isDirectory : Bool
deriving DecidableEq, Repr

/-- Strict code-point lexicographic order on character lists; the model
of `<` between JS strings and of a negative `localeCompare`. -/
def chLt : List Char → List Char → Bool
  | [], [] => false
  | [], _ :: _ => true
  | _ :: _, [] => false
  | a :: as, b :: bs => if a = b then chLt as bs else decide (a < b)

/-- Model of `a.localeCompare(b)`: -1, 0 or 1 by code-point
lexicographic comparison. -/
def localeCompare (a b : String) : Int :=
  if chLt a.data b.data then -1 else if chLt b.data a.data then 1 else 0

/-- The sort comparator of `applyCustomOrder`
(src/treeProvider.ts lines 112-118 and 141-147): folders first when
enabled, then alphabetical on the label. -/
def entryCompare (defaultFoldersFirst : Bool) (a b : Entry) : Int :=
  if defaultFoldersFirst && a.isDirectory && !b.isDirectory then -1
  else if defaultFoldersFirst && !a.isDirectory && b.isDirectory then 1
  else localeCompare a.name b.name

/-- "a stays before b" for the stable sort: comparator value ≤ 0. -/
def entryLe (defaultFoldersFirst : Bool) (a b : Entry) : Prop :=
  entryCompare defaultFoldersFirst a b ≤ 0

instance (defaultFoldersFirst : Bool) : DecidableRel (entryLe defaultFoldersFirst) :=
  fun _ _ => inferInstanceAs (Decidable (_ ≤ _))

/-- `items.sort(comparator)`: stable sort by the comparator. -/
def sortEntries (defaultFoldersFirst : Bool) (items : List Entry) : List Entry :=
  items.insertionSort (entryLe defaultFoldersFirst)

/-- Semantics of the regular expression built by `matchesPattern`
(src/treeProvider.ts lines 152-158): `^` + pattern with `.` escaped and
`*` replaced by `.*` + `$`, tested against the whole file name.  A `*`
matches any (possibly empty) character sequence; every other pattern
character matches exactly itself (`.`, the one further regex
metacharacter the code handles, is escaped to a literal). -/
def globMatch : List Char → List Char → Bool
  | [], cs => cs.isEmpty
  | p :: ps, cs =>
    if p = '*' then cs.tails.any (fun suffix => globMatch ps suffix)
    else
      match cs with
      | [] => false
      | c :: cs2 => p = c && globMatch ps cs2

/-- `matchesPattern(fileName, pattern)` of src/treeProvider.ts. -/
def matchesPattern (fileName pat : String) : Bool :=
  globMatch pat.data fileName.data

/-- The per-token predicate of the custom-order loop
(src/treeProvider.ts lines 127-133): glob match when the token contains
`*`, exact name equality otherwise. -/
def matchesOrderName (orderName fileName : String) : Bool :=
  if orderName.data.contains '*' then matchesPattern fileName orderName
  else fileName == orderName

/-- `remainingItems.findIndex(p)` followed by `splice(index, 1)`:
remove the first element satisfying `p`, returning it and the list
without it; `none` when `findIndex` returns -1. -/
def extractFirst (p : Entry → Bool) : List Entry → Option (Entry × List Entry)
  | [] => none
  | e :: es =>
    if p e then some (e, es)
    else
      match extractFirst p es with
      | none => none
      | some (x, rest) => some (x, e :: rest)

/-- The `customOrder.forEach` loop of `applyCustomOrder`
(src/treeProvider.ts lines 125-138): returns the items consumed by the
tokens, in consumption order, together with the remaining items. -/
def applyLoop : List String → List Entry → List Entry × List Entry
  | [], remaining => ([], remaining)
  | orderName :: restOrder, remaining =>
    match extractFirst (fun item => matchesOrderName orderName item.name) remaining with
    | some (e, remaining2) =>
      let r := applyLoop restOrder remaining2
      (e :: r.1, r.2)
    | none => applyLoop restOrder remaining

/-- `applyCustomOrder` (src/treeProvider.ts lines 106-150), with the
custom order and the folders-first setting passed explicitly in place
of the `ConfigManager` reads. -/
def applyCustomOrder (defaultFoldersFirst : Bool) (customOrder : List String)
    (items : List Entry) : List Entry :=
  if customOrder.length = 0 then sortEntries defaultFoldersFirst items
  else
    let r := applyLoop customOrder items
    r.1 ++ sortEntries defaultFoldersFirst r.2

/-! ### The rule store (src/configManager.ts, src/models/orderRule.ts) -/

/-- The `type` field of a stored rule. -/
inductive RuleType
  | manual
  | pattern
  | template
deriving DecidableEq, Repr

/-- `PatternRule` of src/models/orderRule.ts. -/
structure PatternRule where
  pattern : String
  priority : Int
  description : Option String := none
deriving DecidableEq, Repr

/-- One value of the `OrderConfiguration` map of src/models/orderRule.ts:
`{ order, type, patterns?, template? }`; an absent optional field is
`none`. -/
structure Rule where
  order : List String
  type : RuleType
  patterns : Option (List PatternRule) := none
  template : Option String := none
deriving DecidableEq, Repr

/-- The persisted `rules` object (`OrderConfiguration`): a string-keyed
JS object modelled as an association list in key-insertion order. -/
abbrev RuleSet := List (String × Rule)

/-- `rules[k]` as a read: the binding of `k`, if any. -/
def lookupRule (rules : RuleSet) (k : String) : Option Rule :=
  (rules.find? (fun kv => kv.1 == k)).map (fun kv => kv.2)

/-- `rules[k] = r`: overwrite the existing binding in place (JS keeps
the key's insertion position) or append a new one. -/
def assignRule (rules : RuleSet) (k : String) (r : Rule) : RuleSet :=
  if (rules.find? (fun kv => kv.1 == k)).isSome then
    rules.map (fun kv => if kv.1 == k then (k, r) else kv)
  else rules ++ [(k, r)]

/-- `delete rules[k]`. -/
def deleteRule (rules : RuleSet) (k : String) : RuleSet :=
  rules.filter (fun kv => kv.1 != k)

/-- `folderPath.split(/[\/\\]/)` on the character level: split at every
`/` or `\`, keeping empty segments, never returning an empty list. -/
def splitPathChars : List Char → List (List Char)
  | [] => [[]]
  | c :: cs =>
    let r := splitPathChars cs
    if c = '/' || c = '\\' then [] :: r
    else
      match r with
      | [] => [[c]]
      | s :: rest => (c :: s) :: rest

/-- `folderPath.split(/[\/\\]/).pop() || ''` — the last path segment
(`pop` of a nonempty array; the `|| ''` branch only re-supplies the
empty string). -/
def lastSegment (p : String) : String :=
  String.mk ((splitPathChars p.data).getLastD [])

/-- `folderPath.split(/[\/\\]/).pop() || folderPath` — as above but an
empty last segment (falsy in JS) falls back to the whole path. -/
def baseNameOrPath (p : String) : String :=
  if lastSegment p = "" then p else lastSegment p

/-- `folderPath.endsWith(k)`. -/
def strEndsWith (s suffix : String) : Bool :=
  suffix.data.isSuffixOf s.data

/-- `folderPath.replace(/\\/g, '/')`. -/
def normalizeSlashes (p : String) : String :=
  String.mk (p.data.map (fun c => if c = '\\' then '/' else c))

/-- `generateOrderFromPatterns` (src/configManager.ts lines 51-55):
"For now, return the basic order" — always the empty list. -/
def generateOrderFromPatterns (_ps : List PatternRule) (_folderPath : String) : List String :=
  []

/-- `processOrderWithPatterns` (src/configManager.ts lines 44-49):
pattern expansion only when `rule.type === 'pattern' && rule.patterns`
(a present patterns array is truthy, even when empty); otherwise
`rule.order`. -/
def processOrderWithPatterns (rule : Rule) (folderPath : String) : List String :=
  match rule.type, rule.patterns with
  | RuleType.pattern, some ps => generateOrderFromPatterns ps folderPath
  | _, _ => rule.order

/-- `getOrderForFolder` (src/configManager.ts lines 25-42): exact key
first, then the first key in insertion order that equals the folder's
base name or is a string suffix of the path (`for...in` enumerates keys
in insertion order; `rules[rulePath]` inside the loop is the found
binding's value since object keys are unique). -/
def getOrderForFolder (rules : RuleSet) (folderPath : String) : List String :=
  match lookupRule rules folderPath with
  | some rule => processOrderWithPatterns rule folderPath
  | none =>
    let folderName := lastSegment folderPath
    match rules.find? (fun kv => kv.1 == folderName || strEndsWith folderPath kv.1) with
    | some kv => processOrderWithPatterns kv.2 folderPath
    | none => []

/-- The canonical short names of `setOrderForFolder`. -/
def canonicalNames : List String :=
  ["src", "components", "pages", "hooks", "utils", "assets", "views", "router", "store"]

/-- `setOrderForFolder` (src/configManager.ts lines 57-73): store under
the base name when it is canonical, under the full path otherwise.  The
JS defaults are `type = 'manual'`, `patterns = undefined`; the spread
`...(patterns && { patterns })` keeps an absent patterns argument
absent. -/
def setOrderForFolder (rules : RuleSet) (folderPath : String) (order : List String)
    (type : RuleType := RuleType.manual)
    (patterns : Option (List PatternRule) := none) : RuleSet :=
  let folderName := baseNameOrPath folderPath
  let keyToUse := if canonicalNames.contains folderName then folderName else folderPath
  assignRule rules keyToUse { order := order, type := type, patterns := patterns }

/-- `resetOrderForFolder` (src/configManager.ts lines 75-88): delete
the full-path key, the base-name key and the slash-normalized key. -/
def resetOrderForFolder (rules : RuleSet) (folderPath : String) : RuleSet :=
  let folderName := baseNameOrPath folderPath
  let normalizedPath := normalizeSlashes folderPath
  deleteRule (deleteRule (deleteRule rules folderPath) folderName) normalizedPath

/-- A template-catalog rule value (`ProjectTemplate.rules` entries of
src/models/orderRule.ts): only `order` and optional `patterns`. -/
structure TemplateRule where
  order : List String
  patterns : Option (List PatternRule) := none
deriving DecidableEq, Repr

/-- `ProjectTemplate` of src/models/orderRule.ts. -/
structure ProjectTemplate where
  name : String
  description : String
  rules : List (String × TemplateRule)
deriving DecidableEq, Repr

/-- The rule value written by `applyTemplate` for one template entry
(src/configManager.ts lines 264-271): `type` is `'pattern'` when the
template rule carries a (truthy) patterns array, `'template'`
otherwise; the template's name is always recorded. -/
def templateRuleToRule (templateName : String) (tr : TemplateRule) : Rule :=
  { order := tr.order,
    type := if tr.patterns.isSome then RuleType.pattern else RuleType.template,
    patterns := tr.patterns,
    template := some templateName }

/-- `applyTemplate` (src/configManager.ts lines 260-274): merge every
template rule into the rule set, same-key entries overwritten. -/
def applyTemplate (t : ProjectTemplate) (rules : RuleSet) : RuleSet :=
  t.rules.foldl (fun acc kv => assignRule acc kv.1 (templateRuleToRule t.name kv.2)) rules

/-- The "React Project" entry of `PROJECT_TEMPLATES`
(src/models/orderRule.ts lines 36-57). -/
def reactTemplate : ProjectTemplate :=
  { name := "React Project",
    description := "Standard React project structure",
    rules :=
      [("src",
        { order := ["index.js", "App.jsx", "components", "hooks", "pages", "utils",
                    "assets", "styles"],
          patterns := some
            [{ pattern := "index.*", priority := 1, description := some "Index files first" },
             { pattern := "App.*", priority := 2, description := some "App files second" }] }),
       ("components",
        { order := ["index.js", "*.jsx", "*.js", "*.css", "*.module.css"],
          patterns := some
            [{ pattern := "index.*", priority := 1 },
             { pattern := "*.jsx", priority := 2 },
             { pattern := "*.js", priority := 3 },
             { pattern := "*.css", priority := 4 }] })] }

/-- The "Node.js Project" entry of `PROJECT_TEMPLATES`
(src/models/orderRule.ts lines 71-87); its `src` rule has no patterns. -/
def nodeTemplate : ProjectTemplate :=
  { name := "Node.js Project",
    description := "Standard Node.js project structure",
    rules :=
      [(".",
        { order := ["package.json", "README.md", "src", "lib", "test", "docs",
                    "node_modules"],
          patterns := some
            [{ pattern := "package.json", priority := 1 },
             { pattern := "README.*", priority := 2 },
             { pattern := "*.config.*", priority := 3 }] }),
       ("src",
        { order := ["index.js", "app.js", "server.js", "routes", "controllers",
                    "models", "middleware", "utils"] })] }

/-- `fs.statSync(p).isDirectory()` under try/catch: `st` is the stat
oracle, a thrown error (`none`) leaves the flag `false`. -/
def statIsDirectory (st : String → Option Bool) (p : String) : Bool :=
  (st p).getD false

/-- `path.join(folderPath, name)`; the oracle is keyed on the joined
string, so join normalization is immaterial here. -/
def pathJoin (dir name : String) : String :=
  dir ++ "/" ++ name

/-- `a.toLowerCase() < b.toLowerCase()` (lexicographic). -/
def lowerLt (a b : String) : Bool :=
  chLt (a.data.map Char.toLower) (b.data.map Char.toLower)

/-- The per-element "Sorting Logic" of `restoreItemToDefault`
(src/configManager.ts lines 133-150). -/
def placeBefore (defaultFoldersFirst itemIsDirectory : Bool) (itemName : String)
    (compareIsDirectory : Bool) (compareName : String) : Bool :=
  if defaultFoldersFirst then
    if itemIsDirectory && !compareIsDirectory then true
    else if !itemIsDirectory && compareIsDirectory then false
    else lowerLt itemName compareName
  else lowerLt itemName compareName

/-- `arr.splice(i, 0, x)` for `i ≤ arr.length`. -/
def spliceInsert (l : List String) (i : Nat) (x : String) : List String :=
  l.take i ++ x :: l.drop i

/-- The key probe of `restoreItemToDefault` (src/configManager.ts lines
97-99): full path, then base name, then slash-normalized path. -/
def findRestoreKey (rules : RuleSet) (folderPath : String) : Option String :=
  if (lookupRule rules folderPath).isSome then some folderPath
  else if (lookupRule rules (baseNameOrPath folderPath)).isSome then
    some (baseNameOrPath folderPath)
  else if (lookupRule rules (normalizeSlashes folderPath)).isSome then
    some (normalizeSlashes folderPath)
  else none

/-- `restoreItemToDefault` (src/configManager.ts lines 90-164).  The
insertion index is the first position whose element the item must
precede (`List.findIdx` returns the length when there is none, like the
loop's default).  `if (key && rules[key])`: a `null` key or the falsy
empty-string key leaves the rules untouched. -/
def restoreItemToDefault (st : String → Option Bool) (defaultFoldersFirst : Bool)
    (rules : RuleSet) (folderPath itemName : String) : RuleSet :=
  match findRestoreKey rules folderPath with
  | none => rules
  | some key =>
    if key == "" then rules
    else
      match lookupRule rules key with
      | none => rules
      | some rule =>
        let filteredOrder := rule.order.filter (fun n => n != itemName)
        let itemIsDirectory := statIsDirectory st (pathJoin folderPath itemName)
        let insertIndex := filteredOrder.findIdx (fun compareName =>
          placeBefore defaultFoldersFirst itemIsDirectory itemName
            (statIsDirectory st (pathJoin folderPath compareName)) compareName)
        assignRule rules key { rule with order := spliceInsert filteredOrder insertIndex itemName }

/-! ### Order-theoretic helper lemmas -/

theorem chLt_irrefl (l : List Char) : chLt l l = false := by
  induction l with
  | nil => rfl
  | cons c cs ih => simp [chLt, ih]

theorem chLt_asymm : ∀ (a b : List Char), chLt a b = true → chLt b a = false := by
  intro a
  induction a with
  | nil =>
    intro b h
    cases b with
    | nil => simp [chLt] at h
    | cons x xs => simp [chLt]
  | cons c cs ih =>
    intro b h
    cases b with
    | nil => simp [chLt] at h
    | cons x xs =>
      by_cases hcx : c = x
      · subst hcx
        simp only [chLt, if_pos rfl] at h ⊢
        exact ih xs h
      · simp only [chLt, if_neg hcx, decide_eq_true_eq] at h
        simp only [chLt, if_neg (Ne.symm hcx), decide_eq_false_iff_not]
        exact lt_asymm h

theorem chLt_trans : ∀ (a b c : List Char),
    chLt a b = true → chLt b c = true → chLt a c = true := by
  intro a
  induction a with
  | nil =>
    intro b c hab hbc
    cases b with
    | nil => simp [chLt] at hab
    | cons x xs =>
      cases c with
      | nil => simp [chLt] at hbc
      | cons y ys => simp [chLt]
  | cons a0 as ih =>
    intro b c hab hbc
    cases b with
    | nil => simp [chLt] at hab
    | cons x xs =>
      cases c with
      | nil => simp [chLt] at hbc
      | cons y ys =>
        by_cases h1 : a0 = x
        · subst h1
          simp only [chLt, if_pos rfl] at hab
          by_cases h2 : a0 = y
          · subst h2
            simp only [chLt, if_pos rfl] at hbc ⊢
            exact ih xs ys hab hbc
          · simp only [chLt, if_neg h2] at hbc ⊢
            exact hbc
        · simp only [chLt, if_neg h1, decide_eq_true_eq] at hab
          by_cases h2 : x = y
          · subst h2
            simp only [chLt, if_neg h1, decide_eq_true_eq]
            exact hab
          · simp only [chLt, if_neg h2, decide_eq_true_eq] at hbc
            have hlt : a0 < y := lt_trans hab hbc
            simp only [chLt, if_neg (ne_of_lt hlt), decide_eq_true_eq]
            exact hlt

theorem chLt_eq_of_not : ∀ (a b : List Char),
    chLt a b = false → chLt b a = false → a = b := by
  intro a
  induction a with
  | nil =>
    intro b hab _
    cases b with
    | nil => rfl
    | cons x xs => simp [chLt] at hab
  | cons c cs ih =>
    intro b hab hba
    cases b with
    | nil => simp [chLt] at hba
    | cons x xs =>
      by_cases h1 : c = x
      · subst h1
        simp only [chLt, if_pos rfl] at hab hba
        rw [ih xs hab hba]
      · simp only [chLt, if_neg h1, decide_eq_false_iff_not] at hab
        simp only [chLt, if_neg (Ne.symm h1), decide_eq_false_iff_not] at hba
        exact absurd (le_antisymm (le_of_not_lt hba) (le_of_not_lt hab)) h1

theorem localeCompare_nonpos (a b : String) :
    localeCompare a b ≤ 0 ↔ chLt b.data a.data = false := by
  unfold localeCompare
  by_cases h1 : chLt a.data b.data = true
  · simp [h1, chLt_asymm _ _ h1]
  · by_cases h2 : chLt b.data a.data = true
    · simp [h1, h2]
    · simp [h1, h2]

theorem localeCompare_trans {a b c : String}
    (h1 : localeCompare a b ≤ 0) (h2 : localeCompare b c ≤ 0) :
    localeCompare a c ≤ 0 := by
  rw [localeCompare_nonpos] at h1 h2 ⊢
  cases h : chLt c.data a.data with
  | false => rfl
  | true =>
    cases hbc2 : chLt b.data c.data with
    | true =>
      have := chLt_trans _ _ _ hbc2 h
      rw [this] at h1
      exact absurd h1 (by simp)
    | false =>
      have hcb : c.data = b.data := chLt_eq_of_not _ _ h2 hbc2
      rw [hcb] at h
      rw [h] at h1
      exact absurd h1 (by simp)

theorem localeCompare_total (a b : String) :
    localeCompare a b ≤ 0 ∨ localeCompare b a ≤ 0 := by
  rw [localeCompare_nonpos, localeCompare_nonpos]
  cases h1 : chLt b.data a.data with
  | false => exact Or.inl rfl
  | true => exact Or.inr (chLt_asymm _ _ h1)

theorem entryLe_trans (ff : Bool) :
    ∀ a b c : Entry, entryLe ff a b → entryLe ff b c → entryLe ff a c := by
  rintro ⟨an, ad⟩ ⟨bn, bd⟩ ⟨cn, cd⟩ hab hbc
  cases ff <;> cases ad <;> cases bd <;> cases cd <;>
    simp only [entryLe, entryCompare, Bool.and_self, Bool.and_true, Bool.and_false,
      Bool.true_and, Bool.false_and, Bool.not_true, Bool.not_false, if_true, if_false,
      Bool.true_and, cond_true, cond_false, Bool.false_eq_true, if_neg, ite_true,
      ite_false] at hab hbc ⊢ <;>
    norm_num at hab hbc ⊢ <;>
    exact localeCompare_trans hab hbc

theorem entryLe_total (ff : Bool) : ∀ a b : Entry, entryLe ff a b ∨ entryLe ff b a := by
  rintro ⟨an, ad⟩ ⟨bn, bd⟩
  cases ff <;> cases ad <;> cases bd <;>
    simp only [entryLe, entryCompare, Bool.and_self, Bool.and_true, Bool.and_false,
      Bool.true_and, Bool.false_and, Bool.not_true, Bool.not_false, if_true, if_false,
      ite_true, ite_false] <;>
    first
      | exact localeCompare_total _ _
      | norm_num

theorem sortEntries_sorted (ff : Bool) (items : List Entry) :
    List.Sorted (entryLe ff) (sortEntries ff items) := by
  haveI : IsTotal Entry (entryLe ff) := ⟨entryLe_total ff⟩
  haveI : IsTrans Entry (entryLe ff) := ⟨entryLe_trans ff⟩
  exact List.sorted_insertionSort _ _

theorem sortEntries_perm (ff : Bool) (items : List Entry) :
    (sortEntries ff items).Perm items :=
  List.perm_insertionSort _ _

theorem entryLe_true_spec (a b : Entry) (h : entryLe true a b) :
    (a.isDirectory = true ∧ b.isDirectory = false) ∨
      (a.isDirectory = b.isDirectory ∧ localeCompare a.name b.name ≤ 0) := by
  obtain ⟨an, ad⟩ := a
  obtain ⟨bn, bd⟩ := b
  cases ad <;> cases bd <;>
    simp only [entryLe, entryCompare, Bool.and_self, Bool.and_true, Bool.and_false,
      Bool.true_and, Bool.false_and, Bool.not_true, Bool.not_false, if_true, if_false,
      ite_true, ite_false] at h <;>
    simp_all

/-! ### Custom-order loop helper lemmas -/

theorem extractFirst_eq_none (p : Entry → Bool) :
    ∀ l : List Entry, extractFirst p l = none ↔ ∀ x ∈ l, p x = false := by
  intro l
  induction l with
  | nil => simp [extractFirst]
  | cons a as ih =>
    constructor
    · intro h x hx
      by_cases hp : p a = true
      · simp [extractFirst, hp] at h
      · simp only [Bool.not_eq_true] at hp
        rcases List.mem_cons.mp hx with rfl | hx2
        · exact hp
        · refine ih.mp ?_ x hx2
          simp only [extractFirst, hp, Bool.false_eq_true, if_false] at h
          cases hE : extractFirst p as with
          | none => rfl
          | some pr =>
            obtain ⟨y, r⟩ := pr
            rw [hE] at h
            simp at h
    · intro hall
      have hpa : p a = false := hall a (List.mem_cons_self a as)
      have has : extractFirst p as = none :=
        ih.mpr (fun x hx => hall x (List.mem_cons_of_mem a hx))
      simp [extractFirst, hpa, has]

theorem extractFirst_eq_some (p : Entry → Bool) :
    ∀ (l : List Entry) (e : Entry) (rest : List Entry),
      extractFirst p l = some (e, rest) →
      ∃ l₁ l₂, l = l₁ ++ e :: l₂ ∧ rest = l₁ ++ l₂ ∧ p e = true ∧
        ∀ x ∈ l₁, p x = false := by
  intro l
  induction l with
  | nil => intro e rest h; simp [extractFirst] at h
  | cons a as ih =>
    intro e rest h
    by_cases hp : p a = true
    · simp only [extractFirst, hp, if_true, Option.some.injEq, Prod.mk.injEq] at h
      obtain ⟨he, hr⟩ := h
      subst he
      subst hr
      exact ⟨[], as, rfl, rfl, hp, by simp⟩
    · simp only [Bool.not_eq_true] at hp
      simp only [extractFirst, hp, Bool.false_eq_true, if_false] at h
      cases hE : extractFirst p as with
      | none => rw [hE] at h; simp at h
      | some pr =>
        obtain ⟨x, r2⟩ := pr
        rw [hE] at h
        simp only [Option.some.injEq, Prod.mk.injEq] at h
        obtain ⟨he, hr⟩ := h
        obtain ⟨l₁, l₂, hl, hrest, hpe, hall⟩ := ih x r2 hE
        subst he
        subst hr
        refine ⟨a :: l₁, l₂, by simp [hl], by simp [hrest], hpe, ?_⟩
        intro y hy
        rcases List.mem_cons.mp hy with rfl | hy2
        · exact hp
        · exact hall y hy2

theorem extractFirst_perm (p : Entry → Bool) :
    ∀ (l : List Entry) (e : Entry) (rest : List Entry),
      extractFirst p l = some (e, rest) → l.Perm (e :: rest) := by
  intro l e rest h
  obtain ⟨l₁, l₂, hl, hrest, -, -⟩ := extractFirst_eq_some p l e rest h
  subst hl
  subst hrest
  exact List.perm_middle.trans (List.Perm.refl _)

theorem applyLoop_cons_some {t : String} {ts : List String} {l : List Entry}
    {e : Entry} {rest : List Entry}
    (h : extractFirst (fun item => matchesOrderName t item.name) l = some (e, rest)) :
    applyLoop (t :: ts) l = (e :: (applyLoop ts rest).1, (applyLoop ts rest).2) := by
  simp [applyLoop, h]

theorem applyLoop_cons_none {t : String} {ts : List String} {l : List Entry}
    (h : extractFirst (fun item => matchesOrderName t item.name) l = none) :
    applyLoop (t :: ts) l = applyLoop ts l := by
  simp [applyLoop, h]

theorem applyLoop_append_perm (order : List String) :
    ∀ items : List Entry, ((applyLoop order items).1 ++ (applyLoop order items).2).Perm items := by
  induction order with
  | nil => intro items; simp [applyLoop]
  | cons t ts ih =>
    intro items
    cases h : extractFirst (fun item => matchesOrderName t item.name) items with
    | none => rw [applyLoop_cons_none h]; exact ih items
    | some pr =>
      obtain ⟨e, rest⟩ := pr
      rw [applyLoop_cons_some h]
      have h2 := extractFirst_perm _ _ _ _ h
      exact (((ih rest).cons e).trans h2.symm)

/-- When all tokens are exact (no `*`), pairwise distinct, and each names an
entry of the (duplicate-free) list, the custom-order loop consumes exactly the
named entries in token order and leaves exactly the unnamed ones. -/
theorem applyLoop_exact_spec :
    ∀ (tokens : List String) (items : List Entry),
      (items.map Entry.name).Nodup → tokens.Nodup →
      (∀ t ∈ tokens, t.data.contains '*' = false) →
      (∀ t ∈ tokens, ∃ e ∈ items, e.name = t) →
      (applyLoop tokens items).1.map Entry.name = tokens ∧
        (applyLoop tokens items).2 =
          items.filter (fun e => !(tokens.contains e.name)) ∧
        ∀ e ∈ (applyLoop tokens items).1, e ∈ items := by
  intro tokens
  induction tokens with
  | nil =>
    intro items _ _ _ _
    refine ⟨rfl, ?_, by simp [applyLoop]⟩
    show items = items.filter _
    rw [List.filter_congr (q := fun _ => true) (by intro x _; rfl)]
    simp
  | cons t ts ih =>
    intro items hnames htok hexact hpres
    -- the token is exact, so the loop predicate is name equality
    have hex_t : t.data.contains '*' = false := hexact t (List.mem_cons_self t ts)
    have hpred : ∀ x : Entry, matchesOrderName t x.name = (x.name == t) := by
      intro x
      unfold matchesOrderName
      rw [hex_t]
      simp
    -- the token names some entry, so extraction succeeds
    obtain ⟨e₀, he₀mem, he₀name⟩ := hpres t (List.mem_cons_self t ts)
    cases hE : extractFirst (fun item => matchesOrderName t item.name) items with
    | none =>
      exfalso
      have := (extractFirst_eq_none _ items).mp hE e₀ he₀mem
      rw [hpred e₀, he₀name] at this
      simp at this
    | some pr =>
      obtain ⟨e, rest⟩ := pr
      obtain ⟨l₁, l₂, hitems, hrest, hpe, hl₁⟩ := extractFirst_eq_some _ _ _ _ hE
      have hename : e.name = t := by
        rw [hpred e] at hpe
        exact eq_of_beq hpe
      have hl₁names : ∀ x ∈ l₁, x.name ≠ t := by
        intro x hx
        have h := hl₁ x hx
        rw [hpred x] at h
        simpa using h
      -- name distinctness across the decomposition
      have hnodupNames :
          (e.name :: (l₁.map Entry.name ++ l₂.map Entry.name)).Nodup := by
        have h1 : ((l₁ ++ e :: l₂).map Entry.name).Nodup := by
          rw [← hitems]; exact hnames
        rw [List.map_append, List.map_cons] at h1
        exact List.nodup_middle.mp h1
      have hennotin : e.name ∉ l₁.map Entry.name ++ l₂.map Entry.name :=
        (List.nodup_cons.mp hnodupNames).1
      have hrestNodup : (rest.map Entry.name).Nodup := by
        rw [hrest, List.map_append]
        exact (List.nodup_cons.mp hnodupNames).2
      have hl₂names : ∀ x ∈ l₂, x.name ≠ t := by
        intro x hx hxt
        apply hennotin
        rw [List.mem_append]
        right
        rw [hename, ← hxt]
        exact List.mem_map_of_mem Entry.name hx
      have hrestnames : ∀ x ∈ rest, x.name ≠ t := by
        intro x hx
        rw [hrest] at hx
        rcases List.mem_append.mp hx with h | h
        · exact hl₁names x h
        · exact hl₂names x h
      -- induction hypotheses for the tail of the token list
      have htsNodup : ts.Nodup := (List.nodup_cons.mp htok).2
      have htnotints : t ∉ ts := (List.nodup_cons.mp htok).1
      have hexact2 : ∀ u ∈ ts, u.data.contains '*' = false :=
        fun u hu => hexact u (List.mem_cons_of_mem t hu)
      have hpres2 : ∀ u ∈ ts, ∃ e2 ∈ rest, e2.name = u := by
        intro u hu
        obtain ⟨e2, he2mem, he2name⟩ := hpres u (List.mem_cons_of_mem t hu)
        refine ⟨e2, ?_, he2name⟩
        have hne : e2 ≠ e := by
          intro hEq
          rw [hEq, hename] at he2name
          rw [← he2name] at hu
          exact htnotints hu
        have hmem2 : e2 ∈ l₁ ++ e :: l₂ := by rw [← hitems]; exact he2mem
        rw [hrest]
        rcases List.mem_append.mp hmem2 with h | h
        · exact List.mem_append.mpr (Or.inl h)
        · rcases List.mem_cons.mp h with h2 | h2
          · exact absurd h2 hne
          · exact List.mem_append.mpr (Or.inr h2)
      obtain ⟨ih1, ih2, ih3⟩ := ih rest hrestNodup htsNodup hexact2 hpres2
      rw [applyLoop_cons_some hE]
      refine ⟨by simp [ih1, hename], ?_, ?_⟩
      · -- the untouched items are exactly those no token names
        have hqe : (!((t :: ts).contains e.name)) = false := by
          simp [List.contains_cons, hename]
        have hB : ∀ x ∈ rest,
            (!((t :: ts).contains x.name)) = (!(ts.contains x.name)) := by
          intro x hx
          have hxt : x.name ≠ t := hrestnames x hx
          simp [List.contains_cons, hxt]
        rw [ih2, hitems, List.filter_append]
        rw [show (e :: l₂).filter (fun x => !((t :: ts).contains x.name)) =
              l₂.filter (fun x => !((t :: ts).contains x.name)) by
            simp only [List.filter_cons, hqe, Bool.false_eq_true, if_false]]
        rw [← List.filter_append, ← hrest]
        exact (List.filter_congr hB).symm
      · intro x hx
        rcases List.mem_cons.mp hx with rfl | hx2
        · rw [hitems]
          exact List.mem_append.mpr (Or.inr (List.mem_cons_self _ _))
        · have hxrest := ih3 x hx2
          rw [hrest] at hxrest
          rw [hitems]
          rcases List.mem_append.mp hxrest with h | h
          · exact List.mem_append.mpr (Or.inl h)
          · exact List.mem_append.mpr (Or.inr (List.mem_cons_of_mem _ h))

/-! ### Rule-store helper lemmas -/

theorem lookupRule_cons (kv : String × Rule) (rest : RuleSet) (k' : String) :
    lookupRule (kv :: rest) k' =
      if kv.1 == k' then some kv.2 else lookupRule rest k' := by
  unfold lookupRule
  by_cases hc : (kv.1 == k') = true
  · simp [List.find?_cons, hc]
  · simp [List.find?_cons, hc]

theorem getOrderForFolder_exact (rules : RuleSet) (p : String) (r : Rule)
    (h : lookupRule rules p = some r) :
    getOrderForFolder rules p = processOrderWithPatterns r p := by
  unfold getOrderForFolder
  rw [h]

theorem find?_of_first {α : Type} (p : α → Bool) :
    ∀ (l₁ : List α) (x : α) (l₂ : List α), (∀ y ∈ l₁, p y = false) → p x = true →
      (l₁ ++ x :: l₂).find? p = some x := by
  intro l₁
  induction l₁ with
  | nil =>
    intro x l₂ _ hp
    rw [List.nil_append, List.find?_cons_of_pos _ hp]
  | cons a as ih =>
    intro x l₂ hall hp
    have ha : p a = false := hall a (List.mem_cons_self _ _)
    rw [List.cons_append, List.find?_cons_of_neg _ (by simp [ha])]
    exact ih x l₂ (fun y hy => hall y (List.mem_cons_of_mem _ hy)) hp

theorem lookupRule_mapAssign (k : String) (r : Rule) (k' : String) :
    ∀ rules : RuleSet,
      lookupRule (rules.map (fun kv => if kv.1 == k then (k, r) else kv)) k' =
        if k' = k then
          (if (rules.find? (fun kv => kv.1 == k)).isSome then some r else none)
        else lookupRule rules k' := by
  intro rules
  induction rules with
  | nil =>
    by_cases hkk : k' = k <;> simp [lookupRule, hkk]
  | cons kv rest ih =>
    rw [List.map_cons]
    by_cases hk : (kv.1 == k) = true
    · have hkeq : kv.1 = k := eq_of_beq hk
      rw [if_pos hk, lookupRule_cons, lookupRule_cons,
        List.find?_cons_of_pos (p := fun kv : String × Rule => kv.1 == k) _ hk]
      by_cases hkk : k' = k
      · subst hkk
        simp
      · have h1 : (k == k') = false := by simp [Ne.symm hkk]
        have h2 : (kv.1 == k') = false := by simp [hkeq, Ne.symm hkk]
        rw [h1, h2, ih]
        simp [hkk]
    · have hkf : (kv.1 == k) = false := by simpa using hk
      rw [if_neg hk, lookupRule_cons, lookupRule_cons,
        List.find?_cons_of_neg (p := fun kv : String × Rule => kv.1 == k) _ hk, ih]
      by_cases hkk : k' = k
      · subst hkk
        rw [hkf]
        simp
      · by_cases hc : (kv.1 == k') = true
        · rw [hc]
          simp [hkk]
        · have hcf : (kv.1 == k') = false := by simpa using hc
          rw [hcf]
          simp [hkk]

theorem lookupRule_appendSingle (k : String) (r : Rule) (k' : String) :
    ∀ rules : RuleSet,
      rules.find? (fun kv => kv.1 == k) = none →
      lookupRule (rules ++ [(k, r)]) k' =
        if k' = k then some r else lookupRule rules k' := by
  intro rules
  induction rules with
  | nil =>
    intro _
    rw [List.nil_append, lookupRule_cons]
    by_cases hkk : k' = k
    · subst hkk
      simp [lookupRule]
    · have hne : (k == k') = false := by simp [Ne.symm hkk]
      rw [hne, if_neg hkk]
      simp
  | cons kv rest ih =>
    intro h
    have hhead : (kv.1 == k) = false := by
      by_cases hx : (kv.1 == k) = true
      · rw [List.find?_cons_of_pos (p := fun kv : String × Rule => kv.1 == k) _ hx] at h
        exact Option.noConfusion h
      · simpa using hx
    have hrest : rest.find? (fun kv => kv.1 == k) = none := by
      rw [List.find?_cons_of_neg (p := fun kv : String × Rule => kv.1 == k) _ (by simp [hhead])] at h
      exact h
    rw [List.cons_append, lookupRule_cons, lookupRule_cons, ih hrest]
    by_cases hc : (kv.1 == k') = true
    · by_cases hkk : k' = k
      · subst hkk
        rw [hc] at hhead
        exact Bool.noConfusion hhead
      · rw [hc]
        simp [hkk]
    · have hcf : (kv.1 == k') = false := by simpa using hc
      rw [hcf]
      simp

theorem lookupRule_assignRule (rules : RuleSet) (k : String) (r : Rule) (k' : String) :
    lookupRule (assignRule rules k r) k' =
      if k' = k then some r else lookupRule rules k' := by
  unfold assignRule
  by_cases hfind : (rules.find? (fun kv => kv.1 == k)).isSome = true
  · rw [if_pos hfind, lookupRule_mapAssign, hfind]
    simp
  · rw [if_neg hfind]
    have hnone : rules.find? (fun kv => kv.1 == k) = none := by
      cases hx : rules.find? (fun kv => kv.1 == k) with
      | none => rfl
      | some v => rw [hx] at hfind; simp at hfind
    exact lookupRule_appendSingle k r k' rules hnone

theorem assignRule_of_find?_none (rules : RuleSet) (k : String) (r : Rule)
    (h : rules.find? (fun kv => kv.1 == k) = none) :
    assignRule rules k r = rules ++ [(k, r)] := by
  unfold assignRule
  rw [h]
  rfl

theorem lookupRule_applyTemplate (t : ProjectTemplate) :
    ∀ (entries : List (String × TemplateRule)) (rules : RuleSet) (k : String),
      (entries.map Prod.fst).Nodup →
      lookupRule
          (entries.foldl
            (fun acc kv => assignRule acc kv.1 (templateRuleToRule t.name kv.2)) rules)
          k =
        match entries.find? (fun kv => kv.1 == k) with
        | some kv => some (templateRuleToRule t.name kv.2)
        | none => lookupRule rules k := by
  intro entries
  induction entries with
  | nil => intro rules k _; rfl
  | cons kv rest ih =>
    intro rules k hkeys
    have hkeys2 : (rest.map Prod.fst).Nodup := (List.nodup_cons.mp hkeys).2
    have hknotin : kv.1 ∉ rest.map Prod.fst := (List.nodup_cons.mp hkeys).1
    rw [List.foldl_cons, ih _ k hkeys2]
    by_cases hk : (kv.1 == k) = true
    · have hkeq : kv.1 = k := eq_of_beq hk
      rw [List.find?_cons_of_pos (p := fun kv : String × TemplateRule => kv.1 == k) _ hk]
      have hrest : rest.find? (fun kv2 => kv2.1 == k) = none := by
        refine List.find?_eq_none.mpr (fun x hx => ?_)
        have : x.1 ∈ rest.map Prod.fst := List.mem_map_of_mem Prod.fst hx
        simp only [beq_iff_eq]
        intro hxk
        rw [hxk, ← hkeq] at this
        exact hknotin this
      rw [hrest, lookupRule_assignRule, if_pos hkeq.symm]
    · rw [List.find?_cons_of_neg (p := fun kv : String × TemplateRule => kv.1 == k) _ hk]
      cases hr : rest.find? (fun kv2 => kv2.1 == k) with
      | some kv2 => rfl
      | none =>
        rw [lookupRule_assignRule,
          if_neg (fun hc => hk (by rw [hc]; exact beq_self_eq_true _))]

theorem applyTemplate_foldl_fresh (t : ProjectTemplate) :
    ∀ (entries : List (String × TemplateRule)) (acc : RuleSet),
      (entries.map Prod.fst).Nodup →
      (∀ kv ∈ entries, acc.find? (fun kv2 => kv2.1 == kv.1) = none) →
      entries.foldl
          (fun acc2 kv => assignRule acc2 kv.1 (templateRuleToRule t.name kv.2)) acc =
        acc ++ entries.map (fun kv => (kv.1, templateRuleToRule t.name kv.2)) := by
  intro entries
  induction entries with
  | nil => intro acc _ _; simp
  | cons kv rest ih =>
    intro acc hkeys hfresh
    have hkeys2 : (rest.map Prod.fst).Nodup := (List.nodup_cons.mp hkeys).2
    have hknotin : kv.1 ∉ rest.map Prod.fst := (List.nodup_cons.mp hkeys).1
    rw [List.foldl_cons,
      assignRule_of_find?_none _ _ _ (hfresh kv (List.mem_cons_self _ _)), ih]
    · simp
    · exact hkeys2
    · intro kv2 hkv2
      refine List.find?_eq_none.mpr (fun x hx => ?_)
      rcases List.mem_append.mp hx with hxa | hxs
      · exact List.find?_eq_none.mp (hfresh kv2 (List.mem_cons_of_mem _ hkv2)) x hxa
      · rcases List.mem_singleton.mp hxs with rfl
        simp only [beq_iff_eq]
        intro hxk
        apply hknotin
        rw [hxk]
        exact List.mem_map_of_mem Prod.fst hkv2

/-! ### Claim theorems -/

/-- C1: with a non-empty custom order, `applyCustomOrder` processes each token
in sequence order and a token consumes at most the first remaining entry it
matches; an exact-name token matches by name equality and a token containing
`*` matches via the token read as a full-string-anchored pattern with `.`
escaped and `*` as `.*`; in particular `*.jsx` matches `App.jsx` but not
`App.js`, and the order `["*.jsx","*.jsx"]` on `[A.jsx, B.jsx, C.jsx]` yields
`[A.jsx, B.jsx, C.jsx]`, the first two entries consumed by the two tokens in
entry order. -/
theorem claimC1_token_matching_and_consumption :
    (∀ (p : Entry → Bool) (l : List Entry) (e : Entry) (rest : List Entry),
        extractFirst p l = some (e, rest) →
        ∃ l₁ l₂, l = l₁ ++ e :: l₂ ∧ rest = l₁ ++ l₂ ∧ p e = true ∧
          ∀ x ∈ l₁, p x = false) ∧
    (∀ t s : String, t.data.contains '*' = false → matchesOrderName t s = (s == t)) ∧
    (∀ t s : String, t.data.contains '*' = true →
        matchesOrderName t s = matchesPattern s t) ∧
    (matchesPattern "App.jsx" "*.jsx" = true ∧ matchesPattern "App.js" "*.jsx" = false) ∧
    (∀ (t : String) (ts : List String) (l : List Entry) (e : Entry) (rest : List Entry),
        extractFirst (fun item => matchesOrderName t item.name) l = some (e, rest) →
        applyLoop (t :: ts) l = (e :: (applyLoop ts rest).1, (applyLoop ts rest).2)) ∧
    (∀ (t : String) (ts : List String) (l : List Entry),
        extractFirst (fun item => matchesOrderName t item.name) l = none →
        applyLoop (t :: ts) l = applyLoop ts l) ∧
    (applyLoop ["*.jsx", "*.jsx"]
        [Entry.mk "A.jsx" false, Entry.mk "B.jsx" false, Entry.mk "C.jsx" false] =
      ([Entry.mk "A.jsx" false, Entry.mk "B.jsx" false], [Entry.mk "C.jsx" false]) ∧
      applyCustomOrder true ["*.jsx", "*.jsx"]
        [Entry.mk "A.jsx" false, Entry.mk "B.jsx" false, Entry.mk "C.jsx" false] =
      [Entry.mk "A.jsx" false, Entry.mk "B.jsx" false, Entry.mk "C.jsx" false]) := by
  refine ⟨extractFirst_eq_some, ?_, ?_, ⟨by decide, by decide⟩, ?_, ?_, ⟨by decide, by decide⟩⟩
  · intro t s h
    unfold matchesOrderName
    rw [h]
    simp
  · intro t s h
    unfold matchesOrderName
    rw [h]
    simp
  · intro t ts l e rest h
    exact applyLoop_cons_some h
  · intro t ts l h
    exact applyLoop_cons_none h

/-- Witness for C1: the hypothesis-bearing conjuncts applied at concrete
inputs. -/
theorem claimC1_witness :
    (extractFirst (fun e => e.isDirectory) [Entry.mk "f" false, Entry.mk "d" true] =
        some (Entry.mk "d" true, [Entry.mk "f" false]) ∧
      ∃ l₁ l₂,
        [Entry.mk "f" false, Entry.mk "d" true] = l₁ ++ Entry.mk "d" true :: l₂ ∧
        [Entry.mk "f" false] = l₁ ++ l₂ ∧ (Entry.mk "d" true).isDirectory = true ∧
        ∀ x ∈ l₁, x.isDirectory = false) ∧
    ("index.js".data.contains '*' = false ∧
      matchesOrderName "index.js" "App.js" = ("App.js" == "index.js")) ∧
    ("*.jsx".data.contains '*' = true ∧
      matchesOrderName "*.jsx" "App.jsx" = matchesPattern "App.jsx" "*.jsx") ∧
    (extractFirst (fun item => matchesOrderName "b" item.name) [Entry.mk "b" false] =
        some (Entry.mk "b" false, []) ∧
      applyLoop ["b"] [Entry.mk "b" false] =
        (Entry.mk "b" false :: (applyLoop [] []).1, (applyLoop [] []).2)) ∧
    (extractFirst (fun item => matchesOrderName "zz" item.name) [Entry.mk "b" false] =
        none ∧
      applyLoop ["zz"] [Entry.mk "b" false] = applyLoop [] [Entry.mk "b" false]) :=
  ⟨⟨by decide, claimC1_token_matching_and_consumption.1 _ _ _ _ (by decide)⟩,
   ⟨by decide, claimC1_token_matching_and_consumption.2.1 _ _ (by decide)⟩,
   ⟨by decide, claimC1_token_matching_and_consumption.2.2.1 _ _ (by decide)⟩,
   ⟨by decide, claimC1_token_matching_and_consumption.2.2.2.2.1 _ _ _ _ _ (by decide)⟩,
   ⟨by decide, claimC1_token_matching_and_consumption.2.2.2.2.2.1 _ _ _ (by decide)⟩⟩

/-- C2: when all custom-order tokens are exact names present in the
(duplicate-free) entry list, the output of `applyCustomOrder` begins with
exactly those entries in token order, followed by all entries not named by any
token, sorted by the folders-first-then-alphabetical comparator — never
interleaved among the ordered entries. -/
theorem claimC2_exact_token_order (defaultFoldersFirst : Bool)
    (items : List Entry) (tokens : List String)
    (hnames : (items.map Entry.name).Nodup)
    (htok : tokens.Nodup)
    (hexact : ∀ t ∈ tokens, t.data.contains '*' = false)
    (hpresent : ∀ t ∈ tokens, ∃ e ∈ items, e.name = t) :
    ∃ picked : List Entry,
      applyCustomOrder defaultFoldersFirst tokens items =
        picked ++ sortEntries defaultFoldersFirst
          (items.filter (fun e => !(tokens.contains e.name))) ∧
      picked.map Entry.name = tokens ∧ ∀ e ∈ picked, e ∈ items := by
  obtain ⟨h1, h2, h3⟩ := applyLoop_exact_spec tokens items hnames htok hexact hpresent
  cases tokens with
  | nil =>
    refine ⟨[], ?_, rfl, by simp⟩
    show sortEntries _ items = [] ++ sortEntries _ _
    rw [List.nil_append,
      List.filter_congr (q := fun _ => true) (by intro x _; rfl), List.filter_true]
  | cons t ts =>
    refine ⟨(applyLoop (t :: ts) items).1, ?_, h1, h3⟩
    show ((applyLoop (t :: ts) items).1 ++
        sortEntries defaultFoldersFirst (applyLoop (t :: ts) items).2) = _
    rw [h2]

/-- Witness for C2: one concrete instance of the claim. -/
theorem claimC2_witness :
    ((([Entry.mk "b.txt" false, Entry.mk "a" true].map Entry.name).Nodup ∧
        (["b.txt"] : List String).Nodup ∧
        (∀ t ∈ (["b.txt"] : List String), t.data.contains '*' = false) ∧
        (∀ t ∈ (["b.txt"] : List String),
          ∃ e ∈ [Entry.mk "b.txt" false, Entry.mk "a" true], e.name = t)) ∧
      ∃ picked : List Entry,
        applyCustomOrder true ["b.txt"] [Entry.mk "b.txt" false, Entry.mk "a" true] =
          picked ++ sortEntries true
            ([Entry.mk "b.txt" false, Entry.mk "a" true].filter
              (fun e => !((["b.txt"] : List String).contains e.name))) ∧
        picked.map Entry.name = ["b.txt"] ∧
        ∀ e ∈ picked, e ∈ [Entry.mk "b.txt" false, Entry.mk "a" true]) :=
  ⟨⟨by decide, by decide, by decide, by decide⟩,
    claimC2_exact_token_order true _ _ (by decide) (by decide) (by decide) (by decide)⟩

/-- C3: with an empty custom order, `applyCustomOrder` sorts all entries by
the default comparator: with folders-first enabled, every directory precedes
every file regardless of name, and any two entries of the same kind appear in
alphabetical order of their display names. -/
theorem claimC3_empty_order_default_sort (items : List Entry) :
    (applyCustomOrder true [] items).Perm items ∧
      List.Pairwise
        (fun a b => (a.isDirectory = true ∧ b.isDirectory = false) ∨
          (a.isDirectory = b.isDirectory ∧ localeCompare a.name b.name ≤ 0))
        (applyCustomOrder true [] items) := by
  have he : applyCustomOrder true [] items = sortEntries true items := rfl
  rw [he]
  refine ⟨sortEntries_perm true items, ?_⟩
  have hs : List.Pairwise (entryLe true) (sortEntries true items) :=
    sortEntries_sorted true items
  exact hs.imp (fun h => entryLe_true_spec _ _ h)

/-- C4: `getOrderForFolder` resolves the rule key by exact match on the full
folder path first; with no exact match it uses the first key, in insertion
order of the RuleSet, that equals the folder's base name or is a suffix of the
folder path; with no qualifying key it returns the empty sequence.  The two
closing conjuncts exercise the precedence on concrete rule sets. -/
theorem claimC4_key_resolution :
    (∀ (rules : RuleSet) (p : String) (r : Rule),
        lookupRule rules p = some r →
        getOrderForFolder rules p = processOrderWithPatterns r p) ∧
    (∀ (rules : RuleSet) (p : String),
        lookupRule rules p = none →
        (∀ kv ∈ rules, (kv.1 == lastSegment p || strEndsWith p kv.1) = false) →
        getOrderForFolder rules p = []) ∧
    (∀ (rules₁ rules₂ : RuleSet) (kv : String × Rule) (p : String),
        lookupRule (rules₁ ++ kv :: rules₂) p = none →
        (∀ kv2 ∈ rules₁, (kv2.1 == lastSegment p || strEndsWith p kv2.1) = false) →
        (kv.1 == lastSegment p || strEndsWith p kv.1) = true →
        getOrderForFolder (rules₁ ++ kv :: rules₂) p =
          processOrderWithPatterns kv.2 p) ∧
    (getOrderForFolder
        [("b/c", { order := ["s"], type := RuleType.manual }),
         ("/a/b/c", { order := ["e"], type := RuleType.manual })] "/a/b/c" = ["e"]) ∧
    (getOrderForFolder
        [("c", { order := ["first"], type := RuleType.manual }),
         ("b/c", { order := ["second"], type := RuleType.manual })] "/a/b/c" =
      ["first"]) := by
  refine ⟨getOrderForFolder_exact, ?_, ?_, by decide, by decide⟩
  · intro rules p h hall
    unfold getOrderForFolder
    rw [h]
    show (match List.find?
          (fun kv => kv.1 == lastSegment p || strEndsWith p kv.1) rules with
        | some kv => processOrderWithPatterns kv.2 p
        | none => []) = []
    rw [List.find?_eq_none.mpr (fun kv hkv => by simp [hall kv hkv])]
  · intro rules₁ rules₂ kv p h hall hkv
    unfold getOrderForFolder
    rw [h]
    show (match List.find?
          (fun kv => kv.1 == lastSegment p || strEndsWith p kv.1)
          (rules₁ ++ kv :: rules₂) with
        | some kv => processOrderWithPatterns kv.2 p
        | none => []) = processOrderWithPatterns kv.2 p
    rw [find?_of_first _ rules₁ kv rules₂ hall hkv]

/-- Witness for C4: the hypothesis-bearing conjuncts applied at concrete
inputs. -/
theorem claimC4_witness :
    (lookupRule [("/a", { order := ["x"], type := RuleType.manual })] "/a" =
        some { order := ["x"], type := RuleType.manual } ∧
      getOrderForFolder [("/a", { order := ["x"], type := RuleType.manual })] "/a" =
        processOrderWithPatterns { order := ["x"], type := RuleType.manual } "/a") ∧
    (lookupRule [("zz", { order := ["x"], type := RuleType.manual })] "/a/b" = none ∧
      (∀ kv ∈ [(("zz" : String), { order := ["x"], type := RuleType.manual : Rule })],
        (kv.1 == lastSegment "/a/b" || strEndsWith "/a/b" kv.1) = false) ∧
      getOrderForFolder [("zz", { order := ["x"], type := RuleType.manual })] "/a/b" = []) ∧
    (lookupRule
        ([("zz", { order := ["x"], type := RuleType.manual })] ++
          ("b", { order := ["y"], type := RuleType.manual }) :: []) "/a/b" = none ∧
      (∀ kv2 ∈ [(("zz" : String), { order := ["x"], type := RuleType.manual : Rule })],
        (kv2.1 == lastSegment "/a/b" || strEndsWith "/a/b" kv2.1) = false) ∧
      (("b" : String) == lastSegment "/a/b" || strEndsWith "/a/b" "b") = true ∧
      getOrderForFolder
        ([("zz", { order := ["x"], type := RuleType.manual })] ++
          ("b", { order := ["y"], type := RuleType.manual }) :: []) "/a/b" =
        processOrderWithPatterns { order := ["y"], type := RuleType.manual } "/a/b") :=
  ⟨⟨by decide, claimC4_key_resolution.1 _ _ _ (by decide)⟩,
   ⟨by decide, by decide, claimC4_key_resolution.2.1 _ _ (by decide) (by decide)⟩,
   ⟨by decide, by decide, by decide,
     claimC4_key_resolution.2.2.1 _ _ _ _ (by decide) (by decide) (by decide)⟩⟩

/-- C5: `setOrderForFolder` stores the rule under the folder's base name
exactly when that base name is one of the nine canonical names, under the full
folder path otherwise; consequently a rule set for `/proj/src` answers for
`/other/project/src`. -/
theorem claimC5_canonical_basename_storage :
    (∀ (rules : RuleSet) (p : String) (order : List String),
        canonicalNames.contains (baseNameOrPath p) = true →
        setOrderForFolder rules p order =
          assignRule rules (baseNameOrPath p)
            { order := order, type := RuleType.manual }) ∧
    (∀ (rules : RuleSet) (p : String) (order : List String),
        canonicalNames.contains (baseNameOrPath p) = false →
        setOrderForFolder rules p order =
          assignRule rules p { order := order, type := RuleType.manual }) ∧
    getOrderForFolder
      (setOrderForFolder [] "/proj/src" ["index.js", "App.jsx"])
      "/other/project/src" = ["index.js", "App.jsx"] := by
  refine ⟨?_, ?_, by decide⟩
  · intro rules p order h
    show assignRule rules
        (if canonicalNames.contains (baseNameOrPath p) = true then baseNameOrPath p
          else p)
        { order := order, type := RuleType.manual } =
      assignRule rules (baseNameOrPath p) { order := order, type := RuleType.manual }
    rw [if_pos h]
  · intro rules p order h
    show assignRule rules
        (if canonicalNames.contains (baseNameOrPath p) = true then baseNameOrPath p
          else p)
        { order := order, type := RuleType.manual } =
      assignRule rules p { order := order, type := RuleType.manual }
    rw [if_neg (fun hc => Bool.noConfusion (h ▸ hc))]

/-- Witness for C5: the two storage branches at concrete folders. -/
theorem claimC5_witness :
    (canonicalNames.contains (baseNameOrPath "/proj/src") = true ∧
      setOrderForFolder [] "/proj/src" ["i"] =
        assignRule [] (baseNameOrPath "/proj/src")
          { order := ["i"], type := RuleType.manual }) ∧
    (canonicalNames.contains (baseNameOrPath "/proj/lib") = false ∧
      setOrderForFolder [] "/proj/lib" ["i"] =
        assignRule [] "/proj/lib" { order := ["i"], type := RuleType.manual }) :=
  ⟨⟨by decide, claimC5_canonical_basename_storage.1 _ _ _ (by decide)⟩,
   ⟨by decide, claimC5_canonical_basename_storage.2.1 _ _ _ (by decide)⟩⟩

theorem restoreItemToDefault_eq_of_key (st : String → Option Bool) (ff : Bool)
    (rules : RuleSet) (p item k : String)
    (hfind : findRestoreKey rules p = some k) :
    restoreItemToDefault st ff rules p item =
      (if (k == "") = true then rules
       else
        match lookupRule rules k with
        | none => rules
        | some rule =>
          assignRule rules k
            { rule with
              order :=
                spliceInsert (rule.order.filter (fun n => n != item))
                  ((rule.order.filter (fun n => n != item)).findIdx
                    (fun compareName =>
                      placeBefore ff (statIsDirectory st (pathJoin p item)) item
                        (statIsDirectory st (pathJoin p compareName)) compareName))
                  item }) := by
  unfold restoreItemToDefault
  rw [hfind]

/-- C6 counterexample: the claim says every rule merged by `applyTemplate` is
tagged kind=template, but on an empty RuleSet the React template's `src` rule
(which carries patterns) is stored with kind=pattern. -/
theorem claimC6_counterexample :
    (lookupRule (applyTemplate reactTemplate []) "src").map Rule.type =
      some RuleType.pattern ∧
    RuleType.pattern ≠ RuleType.template := ⟨by decide, by decide⟩

/-- C6 amended: `applyTemplate` merges every folder-key rule of the template
into the RuleSet, overwriting any existing rule for the same key, and tags
every merged rule with the template's name; a merged rule gets kind=pattern
when the template rule carries a patterns list and kind=template otherwise;
applied to an empty RuleSet it produces rules for exactly the keys present in
the template. -/
theorem claimC6_template_merge (t : ProjectTemplate) (rules : RuleSet)
    (hkeys : (t.rules.map Prod.fst).Nodup) :
    (∀ k : String,
        lookupRule (applyTemplate t rules) k =
          match t.rules.find? (fun kv => kv.1 == k) with
          | some kv => some (templateRuleToRule t.name kv.2)
          | none => lookupRule rules k) ∧
    applyTemplate t [] =
      t.rules.map (fun kv => (kv.1, templateRuleToRule t.name kv.2)) ∧
    (∀ kv ∈ applyTemplate t [],
        kv.2.template = some t.name ∧
        kv.2.type =
          (if kv.2.patterns.isSome then RuleType.pattern else RuleType.template)) := by
  have hempty : applyTemplate t [] =
      t.rules.map (fun kv => (kv.1, templateRuleToRule t.name kv.2)) :=
    applyTemplate_foldl_fresh t t.rules [] hkeys (fun kv _ => rfl)
  refine ⟨fun k => lookupRule_applyTemplate t t.rules rules k hkeys, hempty, ?_⟩
  intro kv hkv
  rw [hempty] at hkv
  obtain ⟨kv0, -, rfl⟩ := List.mem_map.mp hkv
  exact ⟨rfl, rfl⟩

/-- Witness for C6 amended: the React template applied to the empty RuleSet. -/
theorem claimC6_witness :
    ((reactTemplate.rules.map Prod.fst).Nodup ∧
      lookupRule (applyTemplate reactTemplate []) "components" =
        match reactTemplate.rules.find? (fun kv => kv.1 == "components") with
        | some kv => some (templateRuleToRule reactTemplate.name kv.2)
        | none => lookupRule [] "components") ∧
    applyTemplate reactTemplate [] =
      reactTemplate.rules.map
        (fun kv => (kv.1, templateRuleToRule reactTemplate.name kv.2)) :=
  ⟨⟨by decide, (claimC6_template_merge reactTemplate [] (by decide)).1 "components"⟩,
    (claimC6_template_merge reactTemplate [] (by decide)).2.1⟩

/-- C7 counterexample: after `resetOrderForFolder` the folder can still
resolve a non-empty order, because a surviving key stored under a different
spelling (here `b/c`) suffix-matches the folder path. -/
theorem claimC7_counterexample :
    getOrderForFolder
      (resetOrderForFolder
        [("b/c", { order := ["x"], type := RuleType.manual })] "/a/b/c")
      "/a/b/c" = ["x"] ∧
    (["x"] : List String) ≠ [] := ⟨by decide, by decide⟩

/-- C7 amended: `resetOrderForFolder` deletes the full-path, base-name and
slash-normalized keys, and is idempotent; afterwards `getOrderForFolder`
returns the empty sequence provided no surviving key equals the folder's base
name or is a suffix of the folder path. -/
theorem claimC7_reset_order (rules : RuleSet) (p : String) :
    resetOrderForFolder (resetOrderForFolder rules p) p =
      resetOrderForFolder rules p ∧
    lookupRule (resetOrderForFolder rules p) p = none ∧
    lookupRule (resetOrderForFolder rules p) (baseNameOrPath p) = none ∧
    lookupRule (resetOrderForFolder rules p) (normalizeSlashes p) = none ∧
    ((∀ kv ∈ resetOrderForFolder rules p,
        (kv.1 == lastSegment p || strEndsWith p kv.1) = false) →
      getOrderForFolder (resetOrderForFolder rules p) p = []) := by
  have hmem : ∀ kv ∈ resetOrderForFolder rules p,
      (kv.1 != p) = true ∧ (kv.1 != baseNameOrPath p) = true ∧
        (kv.1 != normalizeSlashes p) = true := by
    intro kv hkv
    unfold resetOrderForFolder deleteRule at hkv
    obtain ⟨hkv2, h3⟩ := List.mem_filter.mp hkv
    obtain ⟨hkv1, h2⟩ := List.mem_filter.mp hkv2
    obtain ⟨-, h1⟩ := List.mem_filter.mp hkv1
    exact ⟨h1, h2, h3⟩
  have hlook : ∀ k : String,
      (∀ kv ∈ resetOrderForFolder rules p, (kv.1 != k) = true) →
      lookupRule (resetOrderForFolder rules p) k = none := by
    intro k hk
    unfold lookupRule
    rw [List.find?_eq_none.mpr (fun kv hkv => by
      have := hk kv hkv
      simp only [bne_iff_ne, ne_eq] at this
      simp [this])]
    rfl
  have hnone1 : lookupRule (resetOrderForFolder rules p) p = none :=
    hlook p (fun kv hkv => (hmem kv hkv).1)
  refine ⟨?_, hnone1,
    hlook (baseNameOrPath p) (fun kv hkv => (hmem kv hkv).2.1),
    hlook (normalizeSlashes p) (fun kv hkv => (hmem kv hkv).2.2), ?_⟩
  · show deleteRule (deleteRule (deleteRule (resetOrderForFolder rules p) p)
        (baseNameOrPath p)) (normalizeSlashes p) = resetOrderForFolder rules p
    unfold deleteRule
    rw [List.filter_eq_self.mpr (fun kv hkv => (hmem kv hkv).1),
      List.filter_eq_self.mpr (fun kv hkv => (hmem kv hkv).2.1),
      List.filter_eq_self.mpr (fun kv hkv => (hmem kv hkv).2.2)]
  · intro hall
    unfold getOrderForFolder
    rw [hnone1]
    show (match List.find?
          (fun kv => kv.1 == lastSegment p || strEndsWith p kv.1)
          (resetOrderForFolder rules p) with
        | some kv => processOrderWithPatterns kv.2 p
        | none => []) = []
    rw [List.find?_eq_none.mpr (fun kv hkv => by simp [hall kv hkv])]

/-- Witness for C7 amended: concrete instance where the surviving keys do not
match, so the folder's order is empty after the reset. -/
theorem claimC7_witness :
    (∀ kv ∈ resetOrderForFolder
        [("b/c", { order := ["x"], type := RuleType.manual : Rule })] "/z/q",
      (kv.1 == lastSegment "/z/q" || strEndsWith "/z/q" kv.1) = false) ∧
    getOrderForFolder
      (resetOrderForFolder
        [("b/c", { order := ["x"], type := RuleType.manual })] "/z/q")
      "/z/q" = [] :=
  ⟨by decide,
    (claimC7_reset_order
      [("b/c", { order := ["x"], type := RuleType.manual })] "/z/q").2.2.2.2
      (by decide)⟩

/-- C8: `restoreItemToDefault` removes the item from the resolved folder's
custom order and re-inserts it before the first remaining item it must precede
under the default comparator (folders first when enabled, otherwise
case-insensitive alphabetical), treating a failed stat as a file; it modifies
no rule under any other key.  Restoring `z.txt` into `["a","z.txt","b"]`
(folders-first, all files) gives `["a","b","z.txt"]`. -/
theorem claimC8_restore_item :
    (∀ (st : String → Option Bool) (ff : Bool) (rules : RuleSet)
        (p item k k' : String),
        findRestoreKey rules p = some k → k' ≠ k →
        lookupRule (restoreItemToDefault st ff rules p item) k' =
          lookupRule rules k') ∧
    (∀ (st : String → Option Bool) (ff : Bool) (rules : RuleSet) (p item : String),
        findRestoreKey rules p = none →
        restoreItemToDefault st ff rules p item = rules) ∧
    (∀ (st : String → Option Bool) (ff : Bool) (rules : RuleSet)
        (p item k : String) (rule : Rule),
        findRestoreKey rules p = some k → (k == "") = false →
        lookupRule rules k = some rule →
        restoreItemToDefault st ff rules p item =
          assignRule rules k
            { rule with
              order :=
                spliceInsert (rule.order.filter (fun n => n != item))
                  ((rule.order.filter (fun n => n != item)).findIdx
                    (fun compareName =>
                      placeBefore ff
                        (statIsDirectory st (pathJoin p item)) item
                        (statIsDirectory st (pathJoin p compareName)) compareName))
                  item }) ∧
    (restoreItemToDefault (fun _ => some false) true
        [("f", { order := ["a", "z.txt", "b"], type := RuleType.manual }),
         ("g", { order := ["keep"], type := RuleType.manual })] "f" "z.txt" =
      [("f", { order := ["a", "b", "z.txt"], type := RuleType.manual }),
       ("g", { order := ["keep"], type := RuleType.manual })]) ∧
    (restoreItemToDefault (fun _ => none) true
        [("f", { order := ["a", "z.txt", "b"], type := RuleType.manual })] "f" "z.txt" =
      [("f", { order := ["a", "b", "z.txt"], type := RuleType.manual })]) := by
  refine ⟨?_, ?_, ?_, by decide, by decide⟩
  · intro st ff rules p item k k' hfind hne
    rw [restoreItemToDefault_eq_of_key st ff rules p item k hfind]
    by_cases hk0 : (k == "") = true
    · rw [if_pos hk0]
    · rw [if_neg hk0]
      cases hlr : lookupRule rules k with
      | none => rfl
      | some rule =>
        rw [lookupRule_assignRule, if_neg hne]
  · intro st ff rules p item hfind
    unfold restoreItemToDefault
    rw [hfind]
  · intro st ff rules p item k rule hfind hk0 hlr
    rw [restoreItemToDefault_eq_of_key st ff rules p item k hfind,
      if_neg (by simp [hk0]), hlr]

/-- Witness for C8: the hypothesis-bearing conjuncts applied at concrete
inputs. -/
theorem claimC8_witness :
    (findRestoreKey
        [("f", { order := ["a"], type := RuleType.manual : Rule }),
         ("g", { order := ["keep"], type := RuleType.manual : Rule })] "f" =
        some "f" ∧ ("g" : String) ≠ "f" ∧
      lookupRule
        (restoreItemToDefault (fun _ => some false) true
          [("f", { order := ["a"], type := RuleType.manual }),
           ("g", { order := ["keep"], type := RuleType.manual })] "f" "a") "g" =
        lookupRule
          [("f", { order := ["a"], type := RuleType.manual }),
           ("g", { order := ["keep"], type := RuleType.manual })] "g") ∧
    (findRestoreKey [] "nowhere" = none ∧
      restoreItemToDefault (fun _ => some false) true [] "nowhere" "x" = []) ∧
    (findRestoreKey
        [("f", { order := ["a", "z.txt", "b"], type := RuleType.manual : Rule })]
        "f" = some "f" ∧
      (("f" : String) == "") = false ∧
      lookupRule
        [("f", { order := ["a", "z.txt", "b"], type := RuleType.manual : Rule })]
        "f" = some { order := ["a", "z.txt", "b"], type := RuleType.manual } ∧
      restoreItemToDefault (fun _ => some false) true
        [("f", { order := ["a", "z.txt", "b"], type := RuleType.manual })]
        "f" "z.txt" =
        assignRule
          [("f", { order := ["a", "z.txt", "b"], type := RuleType.manual })] "f"
          { { order := ["a", "z.txt", "b"], type := RuleType.manual : Rule } with
            order :=
              spliceInsert
                ((["a", "z.txt", "b"].filter (fun n => n != "z.txt")))
                (((["a", "z.txt", "b"].filter (fun n => n != "z.txt")).findIdx
                  (fun compareName =>
                    placeBefore true
                      (statIsDirectory (fun _ => some false)
                        (pathJoin "f" "z.txt")) "z.txt"
                      (statIsDirectory (fun _ => some false)
                        (pathJoin "f" compareName)) compareName)))
                "z.txt" }) :=
  ⟨⟨by decide, by decide,
      claimC8_restore_item.1 _ true _ "f" "a" "f" "g" (by decide) (by decide)⟩,
   ⟨by decide, claimC8_restore_item.2.1 _ true _ "nowhere" "x" (by decide)⟩,
   ⟨by decide, by decide, by decide,
      claimC8_restore_item.2.2.1 _ true _ "f" "z.txt" "f"
        { order := ["a", "z.txt", "b"], type := RuleType.manual }
        (by decide) (by decide) (by decide)⟩⟩

/-- C9 counterexample: a rule stored through `setOrderForFolder` with
kind=pattern but no patterns list resolves through `getOrderForFolder` to its
`order`, not to the (empty) pattern expansion. -/
theorem claimC9_counterexample :
    (lookupRule (setOrderForFolder [] "p" ["x"] RuleType.pattern none) "p").map
        Rule.type = some RuleType.pattern ∧
    getOrderForFolder (setOrderForFolder [] "p" ["x"] RuleType.pattern none) "p" =
      ["x"] ∧
    (["x"] : List String) ≠ [] := ⟨by decide, by decide, by decide⟩

/-- C9 amended: pattern expansion always yields the empty sequence, and a
resolved rule defers to it exactly when it has pattern kind AND carries a
patterns list; a pattern-kind rule without patterns, like every non-pattern
rule, yields `rule.order` verbatim. -/
theorem claimC9_pattern_rules :
    (∀ (ps : List PatternRule) (p : String), generateOrderFromPatterns ps p = []) ∧
    (∀ (r : Rule) (p : String) (ps : List PatternRule),
        r.type = RuleType.pattern → r.patterns = some ps →
        processOrderWithPatterns r p = []) ∧
    (∀ (r : Rule) (p : String), r.type ≠ RuleType.pattern →
        processOrderWithPatterns r p = r.order) ∧
    (∀ (r : Rule) (p : String), r.patterns = none →
        processOrderWithPatterns r p = r.order) ∧
    (∀ (rules : RuleSet) (p : String) (r : Rule), lookupRule rules p = some r →
        getOrderForFolder rules p = processOrderWithPatterns r p) := by
  refine ⟨fun ps p => rfl, ?_, ?_, ?_, getOrderForFolder_exact⟩
  · intro r p ps ht hp
    obtain ⟨o, ty, pats, tmpl⟩ := r
    simp only at ht hp
    subst ht
    subst hp
    rfl
  · intro r p ht
    obtain ⟨o, ty, pats, tmpl⟩ := r
    simp only at ht
    cases ty with
    | manual => cases pats <;> rfl
    | pattern => exact absurd rfl ht
    | template => cases pats <;> rfl
  · intro r p hp
    obtain ⟨o, ty, pats, tmpl⟩ := r
    simp only at hp
    subst hp
    cases ty <;> rfl

/-- Witness for C9 amended: the hypothesis-bearing conjuncts applied at
concrete rules. -/
theorem claimC9_witness :
    (processOrderWithPatterns
        { order := ["x"], type := RuleType.pattern,
          patterns := some [{ pattern := "*.js", priority := 1 }] } "p" = []) ∧
    (processOrderWithPatterns
        { order := ["x"], type := RuleType.manual } "p" = ["x"]) ∧
    (processOrderWithPatterns
        { order := ["x"], type := RuleType.pattern } "p" = ["x"]) ∧
    (lookupRule [("p", { order := ["x"], type := RuleType.manual : Rule })] "p" =
        some { order := ["x"], type := RuleType.manual } ∧
      getOrderForFolder
        [("p", { order := ["x"], type := RuleType.manual })] "p" =
        processOrderWithPatterns { order := ["x"], type := RuleType.manual } "p") :=
  ⟨claimC9_pattern_rules.2.1 _ "p" _ rfl rfl,
   claimC9_pattern_rules.2.2.1 _ "p" (by decide),
   claimC9_pattern_rules.2.2.2.1 _ "p" rfl,
   by decide,
   claimC9_pattern_rules.2.2.2.2 _ "p" _ (by decide)⟩

/-- C10: for every entry list and every custom order, the output of
`applyCustomOrder` is a permutation of the input: no entry dropped, none
duplicated. -/
theorem claimC10_applyCustomOrder_perm (defaultFoldersFirst : Bool)
    (customOrder : List String) (items : List Entry) :
    (applyCustomOrder defaultFoldersFirst customOrder items).Perm items := by
  simp only [applyCustomOrder]
  by_cases h : customOrder.length = 0
  · rw [if_pos h]
    exact sortEntries_perm _ _
  · rw [if_neg h]
    exact (List.Perm.append_left _ (sortEntries_perm _ _)).trans
      (applyLoop_append_perm _ _)

end CustomFileOrder
